import Mathlib

set_option autoImplicit false
set_option maxHeartbeats 1000000

/-!
Verification of the normalized graph cache core (urql-exchange-graphcache):
the layered key-value map (`src/helpers/map.ts`), the schema predicates and
the `Store` with its `resolveProperty` read primitive
(`src/ast/schemaPredicates.ts`).

JavaScript `Map` objects and plain-object dictionaries are embedded as
insertion-ordered association lists; `T | undefined` values are embedded as
`Option T` with `none` playing the role of `undefined`; `null | number`
arguments are embedded as `Option Nat`.
-/

namespace Graphcache

/-! ## Association lists (JS `Map` / object dictionaries) -/

/-- Insertion-ordered key/value list standing for a JS `Map` or a plain
object dictionary. -/
abbrev AList (κ α : Type) : Type := List (κ × α)

/-- `Map.prototype.get` / property read: value of the first binding of `k`. -/
def alGet {κ α : Type} [DecidableEq κ] : AList κ α → κ → Option α
  | [], _ => none
  | p :: rest, k => if p.1 = k then some p.2 else alGet rest k

/-- `Map.prototype.has` / `k in obj`. -/
def alHas {κ α : Type} [DecidableEq κ] (d : AList κ α) (k : κ) : Bool :=
  (alGet d k).isSome

/-- `Map.prototype.set` / property write: replaces the first binding of `k`
in place, otherwise appends a new binding at the end. -/
def alSet {κ α : Type} [DecidableEq κ] : AList κ α → κ → α → AList κ α
  | [], k, v => [(k, v)]
  | p :: rest, k, v => if p.1 = k then (k, v) :: rest else p :: alSet rest k v

/-- `Map.prototype.delete` / `delete obj[k]`: removes the first binding of `k`. -/
def alDelete {κ α : Type} [DecidableEq κ] : AList κ α → κ → AList κ α
  | [], _ => []
  | p :: rest, k => if p.1 = k then rest else p :: alDelete rest k

theorem alGet_alSet_self {κ α : Type} [DecidableEq κ] (d : AList κ α) (k : κ) (v : α) :
    alGet (alSet d k v) k = some v := by
  induction d with
  | nil => simp [alSet, alGet]
  | cons p rest ih =>
    by_cases h : p.1 = k
    · rw [alSet, if_pos h, alGet, if_pos rfl]
    · rw [alSet, if_neg h, alGet, if_neg h]
      exact ih

theorem alGet_alSet_ne {κ α : Type} [DecidableEq κ] (d : AList κ α) (k j : κ) (v : α)
    (hjk : j ≠ k) : alGet (alSet d k v) j = alGet d j := by
  have hkj : k ≠ j := fun h => hjk h.symm
  induction d with
  | nil => simp [alSet, alGet, hkj]
  | cons p rest ih =>
    by_cases h : p.1 = k
    · rw [alSet, if_pos h, alGet, if_neg hkj, alGet, if_neg (h ▸ hkj)]
    · rw [alSet, if_neg h, alGet, alGet]
      by_cases h2 : p.1 = j
      · rw [if_pos h2, if_pos h2]
      · rw [if_neg h2, if_neg h2]
        exact ih

theorem alGet_alDelete_ne {κ α : Type} [DecidableEq κ] (d : AList κ α) (k j : κ)
    (hjk : j ≠ k) : alGet (alDelete d k) j = alGet d j := by
  induction d with
  | nil => rw [alDelete]
  | cons p rest ih =>
    by_cases h : p.1 = k
    · rw [alDelete, if_pos h, alGet, if_neg (h ▸ fun hh => hjk hh.symm)]
    · rw [alDelete, if_neg h, alGet, alGet]
      by_cases h2 : p.1 = j
      · rw [if_pos h2, if_pos h2]
      · rw [if_neg h2, if_neg h2]
        exact ih

theorem alDelete_sublist {κ α : Type} [DecidableEq κ] (d : AList κ α) (k : κ) :
    List.Sublist (alDelete d k) d := by
  induction d with
  | nil => rw [alDelete]
  | cons p rest ih =>
    by_cases h : p.1 = k
    · rw [alDelete, if_pos h]
      exact (List.Sublist.refl rest).cons p
    · rw [alDelete, if_neg h]
      exact ih.cons₂ p

theorem mem_alDelete {κ α : Type} [DecidableEq κ] {d : AList κ α} {k : κ} {p : κ × α}
    (h : p ∈ alDelete d k) : p ∈ d := (alDelete_sublist d k).mem h

theorem alGet_some_mem {κ α : Type} [DecidableEq κ] {d : AList κ α} {k : κ} {v : α}
    (h : alGet d k = some v) : (k, v) ∈ d := by
  induction d with
  | nil => rw [alGet] at h; exact absurd h (by simp)
  | cons p rest ih =>
    by_cases hp : p.1 = k
    · rw [alGet, if_pos hp] at h
      have hv : p.2 = v := by injection h
      exact List.mem_cons.2 (Or.inl (by rw [← hp, ← hv]))
    · rw [alGet, if_neg hp] at h
      exact List.mem_cons_of_mem _ (ih h)

theorem alGet_alDelete_self {κ α : Type} [DecidableEq κ] (d : AList κ α) (k : κ)
    (hnd : (d.map Prod.fst).Nodup) : alGet (alDelete d k) k = none := by
  induction d with
  | nil => rw [alDelete, alGet]
  | cons p rest ih =>
    rw [List.map_cons, List.nodup_cons] at hnd
    by_cases h : p.1 = k
    · rw [alDelete, if_pos h]
      cases hg : alGet rest k with
      | none => rfl
      | some v =>
        exact absurd (h ▸ List.mem_map_of_mem Prod.fst (alGet_some_mem hg)) hnd.1
    · rw [alDelete, if_neg h, alGet, if_neg h]
      exact ih hnd.2

theorem mem_alSet {κ α : Type} [DecidableEq κ] {d : AList κ α} {k : κ} {v : α} {p : κ × α}
    (h : p ∈ alSet d k v) : p.1 = k ∨ p ∈ d := by
  induction d with
  | nil =>
    rw [alSet, List.mem_singleton] at h
    exact Or.inl (by rw [h])
  | cons q rest ih =>
    by_cases hq : q.1 = k
    · rw [alSet, if_pos hq, List.mem_cons] at h
      rcases h with h | h
      · exact Or.inl (by rw [h])
      · exact Or.inr (List.mem_cons_of_mem _ h)
    · rw [alSet, if_neg hq, List.mem_cons] at h
      rcases h with h | h
      · exact Or.inr (h ▸ List.mem_cons_self _ _)
      · rcases ih h with h' | h'
        · exact Or.inl h'
        · exact Or.inr (List.mem_cons_of_mem _ h')

theorem mem_fst_alSet {κ α : Type} [DecidableEq κ] {d : AList κ α} {k j : κ} {v : α}
    (h : j ∈ (alSet d k v).map Prod.fst) : j = k ∨ j ∈ d.map Prod.fst := by
  rcases List.mem_map.1 h with ⟨p, hp, hj⟩
  rcases mem_alSet hp with h' | h'
  · exact Or.inl (by rw [← hj, h'])
  · exact Or.inr (by rw [← hj]; exact List.mem_map_of_mem Prod.fst h')

theorem fst_nodup_alSet {κ α : Type} [DecidableEq κ] (d : AList κ α) (k : κ) (v : α)
    (hnd : (d.map Prod.fst).Nodup) : ((alSet d k v).map Prod.fst).Nodup := by
  induction d with
  | nil => simp [alSet]
  | cons p rest ih =>
    rw [List.map_cons, List.nodup_cons] at hnd
    by_cases h : p.1 = k
    · rw [alSet, if_pos h, List.map_cons, List.nodup_cons]
      refine ⟨?_, hnd.2⟩
      show k ∉ List.map Prod.fst rest
      rw [← h]
      exact hnd.1
    · rw [alSet, if_neg h, List.map_cons, List.nodup_cons]
      refine ⟨fun hmem => ?_, ih hnd.2⟩
      rcases mem_fst_alSet hmem with h' | h'
      · exact h h'
      · exact hnd.1 h'

theorem mem_alDelete_fst_ne {κ α : Type} [DecidableEq κ] {d : AList κ α} {k : κ} {p : κ × α}
    (hnd : (d.map Prod.fst).Nodup) (h : p ∈ alDelete d k) : p.1 ≠ k := by
  induction d with
  | nil => rw [alDelete] at h; exact absurd h (by simp)
  | cons q rest ih =>
    rw [List.map_cons, List.nodup_cons] at hnd
    by_cases hq : q.1 = k
    · rw [alDelete, if_pos hq] at h
      intro hc
      apply hnd.1
      rw [hq, ← hc]
      exact List.mem_map_of_mem Prod.fst h
    · rw [alDelete, if_neg hq, List.mem_cons] at h
      rcases h with h | h
      · rw [h]; exact hq
      · exact ih hnd.2 h

/-! ## Layered key-value map (`src/helpers/map.ts`)

`KVMap T` mirrors the `KVMap<T>` interface: `optimistic` is the
`{ [optimisticKey: number]: Map<string, T | undefined> }` dictionary,
`base` is the `Map<string, T>`, `keys` is the `number[]` layer order.
A stored `none` in an overlay is the `undefined` tombstone. -/

structure KVMap (T : Type) where
  optimistic : AList Nat (AList String (Option T))
  base : AList String T
  keys : List Nat
deriving DecidableEq

/-- `make()` from `map.ts`. -/
def KVMap.make {T : Type} : KVMap T :=
  { optimistic := [], base := [], keys := [] }

/-- The base-map branches of `set` (`value === undefined` deletes, any other
value overwrites). -/
def KVMap.setBase {T : Type} (m : KVMap T) (key : String) (value : Option T) : KVMap T :=
  match value with
  | none => { m with base := alDelete m.base key }
  | some v => { m with base := alSet m.base key v }

/-- `set(map, key, value, optimisticKey)` from `map.ts`. The guard in the
source is `if (optimisticKey)`, a JS truthiness test on `null | number`:
it selects the overlay path only for a non-null, non-zero key, which the
embedding renders as the `some k` match plus the `k = 0` test. -/
def KVMap.set {T : Type} (m : KVMap T) (key : String) (value : Option T)
    (optimisticKey : Option Nat) : KVMap T :=
  match optimisticKey with
  | some k =>
    if k = 0 then m.setBase key value
    else
      match alGet m.optimistic k with
      | none =>
        { m with
          optimistic := alSet m.optimistic k (alSet ([] : AList String (Option T)) key value),
          keys := k :: m.keys }
      | some ov =>
        { m with optimistic := alSet m.optimistic k (alSet ov key value) }
  | none => m.setBase key value

/-- `keys.splice(keys.indexOf(k), 1)`: remove the first occurrence. -/
def eraseFirst : List Nat → Nat → List Nat
  | [], _ => []
  | x :: xs, k => if x = k then xs else x :: eraseFirst xs k

/-- `clear(map, optimisticKey)` from `map.ts`: when the layer id occurs in
`keys` (`indexOf > -1`), the overlay is deleted from the dictionary and the
id spliced out of the order; otherwise nothing happens. -/
def KVMap.clear {T : Type} (m : KVMap T) (optimisticKey : Nat) : KVMap T :=
  if optimisticKey ∈ m.keys then
    { m with
      optimistic := alDelete m.optimistic optimisticKey,
      keys := eraseFirst m.keys optimisticKey }
  else m

/-- The loop of `get` from `map.ts`: scan `keys` in order; the first overlay
that `has` the requested key yields its stored value (possibly the
tombstone, returned as JS `undefined`); otherwise fall through to `base`.
A layer id with no overlay in the dictionary would crash in JS; the
embedding skips it, a case that is unreachable for containers built by the
API (see `keys_invariant`). -/
def getGo {T : Type} (opt : AList Nat (AList String (Option T))) (base : AList String T) :
    List Nat → String → Option T
  | [], key => alGet base key
  | k :: rest, key =>
    if alHas ((alGet opt k).getD []) key
    then Option.join (alGet ((alGet opt k).getD []) key)
    else getGo opt base rest key

/-- `get(map, key)` from `map.ts`. The JS return type `T | undefined`
conflates a stored tombstone with a missing key; both come out as `none`. -/
def KVMap.get {T : Type} (m : KVMap T) (key : String) : Option T :=
  getGo m.optimistic m.base m.keys key

/-- The first layer in the order (newest first) whose mapping has the key
present. -/
def firstLayerWith {T : Type} (opt : AList Nat (AList String (Option T))) :
    List Nat → String → Option Nat
  | [], _ => none
  | k :: rest, key =>
    if alHas ((alGet opt k).getD []) key then some k
    else firstLayerWith opt rest key

/-- Lookup as the specification words it: the first layer (newest first)
whose mapping has the key present wins and its stored value (possibly the
tombstone) is returned; only when no open overlay has the key does the base
mapping answer. -/
def getClaimSpec {T : Type} (m : KVMap T) (key : String) : Option T :=
  match firstLayerWith m.optimistic m.keys key with
  | some k => Option.join (alGet ((alGet m.optimistic k).getD []) key)
  | none => alGet m.base key

/-- Structural well-formedness of a layered container: the layer order is
duplicate-free, never contains the (falsy) id `0`, and lists exactly the
overlays present in the optimistic dictionary, whose own keys are
duplicate-free. Every container reachable through the `map.ts` API
satisfies this (`reachable_inv`). -/
def Inv {T : Type} (m : KVMap T) : Prop :=
  m.keys.Nodup ∧
  0 ∉ m.keys ∧
  (∀ k ∈ m.keys, (alGet m.optimistic k).isSome = true) ∧
  (∀ p ∈ m.optimistic, p.1 ∈ m.keys) ∧
  (m.optimistic.map Prod.fst).Nodup

instance {T : Type} (m : KVMap T) : Decidable (Inv m) := by
  unfold Inv
  infer_instance

/-- Containers built from `make()` by `set` and `clear` calls. -/
inductive Reachable {T : Type} : KVMap T → Prop where
  | init : Reachable KVMap.make
  | step_set (key : String) (value : Option T) (ok : Option Nat) {m : KVMap T} :
      Reachable m → Reachable (m.set key value ok)
  | step_clear (k : Nat) {m : KVMap T} :
      Reachable m → Reachable (m.clear k)

theorem eraseFirst_sublist (l : List Nat) (k : Nat) :
    List.Sublist (eraseFirst l k) l := by
  induction l with
  | nil => rw [eraseFirst]
  | cons x xs ih =>
    by_cases h : x = k
    · rw [eraseFirst, if_pos h]
      exact (List.Sublist.refl xs).cons x
    · rw [eraseFirst, if_neg h]
      exact ih.cons₂ x

theorem eraseFirst_eq_filter (l : List Nat) (k : Nat) (h : l.Nodup) :
    eraseFirst l k = l.filter (fun j => j ≠ k) := by
  induction l with
  | nil => rw [eraseFirst, List.filter_nil]
  | cons x xs ih =>
    rw [List.nodup_cons] at h
    by_cases hx : x = k
    · rw [eraseFirst, if_pos hx, List.filter_cons]
      have : (decide (x ≠ k)) = false := by simp [hx]
      rw [this]
      simp only [Bool.false_eq_true, if_false]
      symm
      rw [List.filter_eq_self]
      intro a ha
      simp only [decide_eq_true_eq]
      intro hak
      exact h.1 (by rw [← hx] at hak; rw [← hak]; exact ha)
    · rw [eraseFirst, if_neg hx, List.filter_cons]
      have : (decide (x ≠ k)) = true := by simp [hx]
      rw [this]
      simp only [if_true]
      rw [ih h.2]

theorem mem_eraseFirst_iff {l : List Nat} {k j : Nat} (h : l.Nodup) :
    j ∈ eraseFirst l k ↔ j ∈ l ∧ j ≠ k := by
  rw [eraseFirst_eq_filter l k h, List.mem_filter]
  simp

theorem inv_make {T : Type} : Inv (KVMap.make : KVMap T) := by
  refine ⟨List.nodup_nil, ?_, ?_, ?_, ?_⟩ <;> simp [KVMap.make]

theorem inv_setBase {T : Type} (m : KVMap T) (key : String) (value : Option T)
    (h : Inv m) : Inv (m.setBase key value) := by
  obtain ⟨h1, h2, h3, h4, h5⟩ := h
  cases value with
  | none => exact ⟨h1, h2, h3, h4, h5⟩
  | some v => exact ⟨h1, h2, h3, h4, h5⟩

theorem inv_set {T : Type} (m : KVMap T) (key : String) (value : Option T)
    (ok : Option Nat) (h : Inv m) : Inv (m.set key value ok) := by
  obtain ⟨h1, h2, h3, h4, h5⟩ := h
  cases ok with
  | none => exact inv_setBase m key value ⟨h1, h2, h3, h4, h5⟩
  | some k =>
    by_cases hk0 : k = 0
    · rw [KVMap.set, if_pos hk0]
      exact inv_setBase m key value ⟨h1, h2, h3, h4, h5⟩
    · rw [KVMap.set, if_neg hk0]
      cases halg : alGet m.optimistic k with
      | none =>
        have hknotin : k ∉ m.keys := fun hmem => by
          have := h3 k hmem
          rw [halg] at this
          exact absurd this (by simp)
        refine ⟨?_, ?_, ?_, ?_, ?_⟩
        · exact List.nodup_cons.2 ⟨hknotin, h1⟩
        · intro hmem
          rcases List.mem_cons.1 hmem with hc | hc
          · exact hk0 hc.symm
          · exact h2 hc
        · intro j hj
          rcases List.mem_cons.1 hj with hc | hc
          · rw [hc, alGet_alSet_self]
            rfl
          · have hjk : j ≠ k := fun hc2 => hknotin (hc2 ▸ hc)
            rw [alGet_alSet_ne _ _ _ _ hjk]
            exact h3 j hc
        · intro p hp
          rcases mem_alSet hp with hc | hc
          · exact List.mem_cons.2 (Or.inl hc)
          · exact List.mem_cons.2 (Or.inr (h4 p hc))
        · exact fst_nodup_alSet _ _ _ h5
      | some ov =>
        have hkin : k ∈ m.keys := h4 (k, ov) (alGet_some_mem halg)
        refine ⟨h1, h2, ?_, ?_, ?_⟩
        · intro j hj
          by_cases hjk : j = k
          · rw [hjk, alGet_alSet_self]
            rfl
          · rw [alGet_alSet_ne _ _ _ _ hjk]
            exact h3 j hj
        · intro p hp
          rcases mem_alSet hp with hc | hc
          · exact hc ▸ hkin
          · exact h4 p hc
        · exact fst_nodup_alSet _ _ _ h5

theorem inv_clear {T : Type} (m : KVMap T) (k : Nat) (h : Inv m) :
    Inv (m.clear k) := by
  obtain ⟨h1, h2, h3, h4, h5⟩ := h
  by_cases hk : k ∈ m.keys
  · rw [KVMap.clear, if_pos hk]
    refine ⟨?_, ?_, ?_, ?_, ?_⟩
    · exact h1.sublist (eraseFirst_sublist m.keys k)
    · exact fun hmem => h2 ((eraseFirst_sublist m.keys k).mem hmem)
    · intro j hj
      have hj' := (mem_eraseFirst_iff h1).1 hj
      rw [alGet_alDelete_ne _ _ _ hj'.2]
      exact h3 j hj'.1
    · intro p hp
      refine (mem_eraseFirst_iff h1).2 ⟨h4 p (mem_alDelete hp), ?_⟩
      exact mem_alDelete_fst_ne h5 hp
    · exact h5.sublist ((alDelete_sublist m.optimistic k).map Prod.fst)
  · rw [KVMap.clear, if_neg hk]
    exact ⟨h1, h2, h3, h4, h5⟩

/-- Every container built through the `map.ts` API is well-formed. -/
theorem reachable_inv {T : Type} {m : KVMap T} (h : Reachable m) : Inv m := by
  induction h with
  | init => exact inv_make
  | step_set key value ok _ ih => exact inv_set _ key value ok ih
  | step_clear k _ ih => exact inv_clear _ k ih

/-- When no scanned layer has the key, `get`'s loop falls through to base. -/
theorem getGo_of_not_has {T : Type} (opt : AList Nat (AList String (Option T)))
    (base : AList String T) (keys : List Nat) (key : String)
    (h : ∀ j ∈ keys, alHas ((alGet opt j).getD []) key = false) :
    getGo opt base keys key = alGet base key := by
  induction keys with
  | nil => rw [getGo]
  | cons j rest ih =>
    have hj := h j (List.mem_cons_self _ _)
    rw [getGo, if_neg (by rw [hj]; exact Bool.false_ne_true)]
    exact ih fun x hx => h x (List.mem_cons_of_mem _ hx)

/-- When exactly one scanned layer has the key, `get`'s loop returns its
stored value. -/
theorem getGo_mem {T : Type} (opt : AList Nat (AList String (Option T)))
    (base : AList String T) (keys : List Nat) (key : String) (L : Nat)
    (ovL : AList String (Option T)) (w : Option T)
    (hmem : L ∈ keys) (hov : alGet opt L = some ovL) (hkey : alGet ovL key = some w)
    (hothers : ∀ j ∈ keys, j ≠ L → alHas ((alGet opt j).getD []) key = false) :
    getGo opt base keys key = w := by
  induction keys with
  | nil => exact absurd hmem (by simp)
  | cons j rest ih =>
    by_cases hjL : j = L
    · rw [getGo, hjL, hov]
      simp only [Option.getD_some, alHas, hkey, Option.isSome_some, if_true]
      rfl
    · have hj := hothers j (List.mem_cons_self _ _) hjL
      have hmem' : L ∈ rest := by
        rcases List.mem_cons.1 hmem with hc | hc
        · exact absurd hc.symm hjL
        · exact hc
      rw [getGo, if_neg (by rw [hj]; exact Bool.false_ne_true)]
      exact ih hmem' fun x hx hxL => hothers x (List.mem_cons_of_mem _ hx) hxL

theorem set_layer_eq_of_none {T : Type} (m : KVMap T) (key : String) (value : Option T)
    (k : Nat) (hk : k ≠ 0) (h : alGet m.optimistic k = none) :
    m.set key value (some k) =
      { m with
        optimistic := alSet m.optimistic k (alSet ([] : AList String (Option T)) key value),
        keys := k :: m.keys } := by
  simp only [KVMap.set]
  rw [if_neg hk]
  split
  · rfl
  · next ov heq => rw [h] at heq; exact absurd heq (by simp)

theorem set_layer_eq_of_some {T : Type} (m : KVMap T) (key : String) (value : Option T)
    (k : Nat) (ov : AList String (Option T)) (hk : k ≠ 0)
    (h : alGet m.optimistic k = some ov) :
    m.set key value (some k) =
      { m with optimistic := alSet m.optimistic k (alSet ov key value) } := by
  simp only [KVMap.set]
  rw [if_neg hk]
  split
  · next heq => rw [h] at heq; exact absurd heq (by simp)
  · next ov' heq =>
    rw [h] at heq
    injection heq with hh
    rw [← hh]

theorem clear_eq_of_mem {T : Type} (m : KVMap T) (k : Nat) (h : k ∈ m.keys) :
    m.clear k =
      { m with optimistic := alDelete m.optimistic k, keys := eraseFirst m.keys k } := by
  rw [KVMap.clear, if_pos h]

theorem clear_eq_of_not_mem {T : Type} (m : KVMap T) (k : Nat) (h : k ∉ m.keys) :
    m.clear k = m := by
  rw [KVMap.clear, if_neg h]

/-- The scan of `get` returns the winning layer's stored value, the base
value otherwise. -/
theorem getGo_eq_find {T : Type} (opt : AList Nat (AList String (Option T)))
    (base : AList String T) (keys : List Nat) (key : String) :
    getGo opt base keys key =
      match firstLayerWith opt keys key with
      | some k => Option.join (alGet ((alGet opt k).getD []) key)
      | none => alGet base key := by
  induction keys with
  | nil => rw [getGo, firstLayerWith]
  | cons j rest ih =>
    by_cases hp : alHas ((alGet opt j).getD []) key = true
    · rw [getGo, if_pos hp, firstLayerWith, if_pos hp]
    · rw [getGo, if_neg hp, firstLayerWith, if_neg hp, ih]

/-- Claim C2: on any container built by the `map.ts` API (where `get`'s
overlay dereference cannot fail), `get(container, key)` returns the value
held by the most recently opened overlay whose mapping has the key present
— including a stored tombstone, which is returned and shadows older layers
and base — and falls back to the base mapping only when no open overlay has
the key. -/
theorem get_layered_lookup {T : Type} (m : KVMap T) (key : String) (h : Inv m) :
    m.get key = getClaimSpec m key :=
  getGo_eq_find m.optimistic m.base m.keys key

/-- Witness for C2: base holds `7` under `"k"`, overlay `3` holds the
tombstone, and the tombstone wins. -/
theorem get_layered_lookup_witness :
    KVMap.get (((KVMap.make : KVMap Nat).set "k" (some 7) none).set "k" none (some 3)) "k" =
        getClaimSpec (((KVMap.make : KVMap Nat).set "k" (some 7) none).set "k" none (some 3)) "k" ∧
      KVMap.get (((KVMap.make : KVMap Nat).set "k" (some 7) none).set "k" none (some 3)) "k" = none :=
  ⟨get_layered_lookup _ "k" (by decide), by decide⟩

/-- Counterexample to claim C3 as stated: the layer id `0` is non-null, yet
`set(c, "k", undefined, 0)` takes the base branch — the guard in the source
is the truthiness test `if (optimisticKey)`, not a null test. No overlay is
opened for id `0`, and base is modified (the key is deleted from it). -/
theorem set_layer_zero_claim_false :
    alGet (((KVMap.make : KVMap Nat).set "k" (some 1) none).set "k" none (some 0)).optimistic 0 =
        none ∧
      (((KVMap.make : KVMap Nat).set "k" (some 1) none).set "k" none (some 0)).keys = [] ∧
      (((KVMap.make : KVMap Nat).set "k" (some 1) none).set "k" none (some 0)).base ≠
        ((KVMap.make : KVMap Nat).set "k" (some 1) none).base := by
  decide

/-- Claim C3, amended: for any *nonzero* layer id `k`, `set` writes
`key → value` into the overlay for `k` (opening it and pushing it to the
front of the layer order if not already open), even when `value` is the
sentinel, which is stored as a tombstone; base is never modified on this
path. With a null — or, forced by the counterexample, zero — layer id, a
sentinel value deletes the key from base and any other value overwrites it
in base. -/
theorem set_behavior_amended {T : Type} (m : KVMap T) (key : String) (value : Option T)
    (k : Nat) (hInv : Inv m) (hk : k ≠ 0) :
    ((m.set key value (some k)).base = m.base ∧
      (∃ ov, alGet (m.set key value (some k)).optimistic k = some ov ∧
        alGet ov key = some value) ∧
      (k ∈ m.keys → (m.set key value (some k)).keys = m.keys) ∧
      (k ∉ m.keys → (m.set key value (some k)).keys = k :: m.keys)) ∧
    ((m.set key none none).base = alDelete m.base key ∧
      (m.set key none none).optimistic = m.optimistic ∧
      (m.set key none none).keys = m.keys) ∧
    (∀ v : T, (m.set key (some v) none).base = alSet m.base key v ∧
      (m.set key (some v) none).optimistic = m.optimistic ∧
      (m.set key (some v) none).keys = m.keys) := by
  obtain ⟨h1, h2, h3, h4, h5⟩ := hInv
  refine ⟨?_, ⟨rfl, rfl, rfl⟩, fun v => ⟨rfl, rfl, rfl⟩⟩
  cases halg : alGet m.optimistic k with
  | none =>
    have hknotin : k ∉ m.keys := fun hmem => by
      have hs := h3 k hmem
      rw [halg] at hs
      exact absurd hs (by simp)
    rw [set_layer_eq_of_none m key value k hk halg]
    exact ⟨rfl,
      ⟨alSet ([] : AList String (Option T)) key value, alGet_alSet_self _ _ _,
        alGet_alSet_self _ _ _⟩,
      fun hmem => absurd hmem hknotin, fun _ => rfl⟩
  | some ov =>
    have hkin : k ∈ m.keys := h4 (k, ov) (alGet_some_mem halg)
    rw [set_layer_eq_of_some m key value k ov hk halg]
    exact ⟨rfl,
      ⟨alSet ov key value, alGet_alSet_self _ _ _, alGet_alSet_self _ _ _⟩,
      fun _ => rfl, fun hmem => absurd hkin hmem⟩

/-- Witness for C3 (amended): a tombstone written into the already-open
layer `9` is stored there, not deleted. -/
theorem set_behavior_amended_witness :
    ∃ ov,
      alGet (((KVMap.make : KVMap Nat).set "a" (some 5) (some 9)).set "b" none
          (some 9)).optimistic 9 = some ov ∧
        alGet ov "b" = some none :=
  ((set_behavior_amended ((KVMap.make : KVMap Nat).set "a" (some 5) (some 9)) "b" none 9
      (by decide) (by decide)).1).2.1

/-- Counterexample to claim C4 as stated: it quantifies over *any* starting
container. Starting from a container whose open overlay `2` already maps
`"k"`, the base write of `v1 = 1` and the layer-`1` write of `v2 = 2` give
`get = 2` as claimed, but after `clear(1)` the surviving overlay `2`
shadows base, so `get = 99`, not `v1 = 1`. -/
theorem optimistic_isolation_claim_false :
    KVMap.get ((((KVMap.make : KVMap Nat).set "k" (some 99) (some 2)).set "k" (some 1)
          none).set "k" (some 2) (some 1)) "k" = some 2 ∧
      KVMap.get (((((KVMap.make : KVMap Nat).set "k" (some 99) (some 2)).set "k" (some 1)
            none).set "k" (some 2) (some 1)).clear 1) "k" = some 99 ∧
      (some 99 : Option Nat) ≠ some 1 := by
  decide

/-- Claim C4, amended: the isolation/rollback law holds for a nonzero layer
id `L` (forced by the truthiness guard, see C3) and any well-formed starting
container in which no open overlay has key `k` present (forced by the
counterexample: a pre-existing overlay entry for `k` survives the rollback
and shadows base). Then writing `v1` to base and `v2` to layer `L` yields
`get = v2`, and after `clear(L)` `get = v1` again. -/
theorem optimistic_isolation_amended {T : Type} (m : KVMap T) (k : String) (v1 v2 : T)
    (L : Nat) (hInv : Inv m) (hL : L ≠ 0)
    (hfree : ∀ j ∈ m.keys, alHas ((alGet m.optimistic j).getD []) k = false) :
    ((m.set k (some v1) none).set k (some v2) (some L)).get k = some v2 ∧
    (((m.set k (some v1) none).set k (some v2) (some L)).clear L).get k = some v1 := by
  obtain ⟨h1, h2, h3, h4, h5⟩ := hInv
  have hm1 : m.set k (some v1) none =
      { m with base := alSet m.base k v1 } := rfl
  cases halg : alGet m.optimistic L with
  | none =>
    have hLnotin : L ∉ m.keys := fun hmem => by
      have hs := h3 L hmem
      rw [halg] at hs
      exact absurd hs (by simp)
    have e2 : (m.set k (some v1) none).set k (some v2) (some L) =
        { optimistic := alSet m.optimistic L (alSet ([] : AList String (Option T)) k (some v2)),
          base := alSet m.base k v1,
          keys := L :: m.keys } := by
      rw [hm1]
      exact set_layer_eq_of_none _ _ _ _ hL halg
    constructor
    · rw [e2]
      show getGo _ _ (L :: m.keys) k = some v2
      rw [getGo, alGet_alSet_self]
      simp only [Option.getD_some, alHas, alGet_alSet_self, Option.isSome_some, if_true]
      rfl
    · rw [e2, clear_eq_of_mem _ _ (List.mem_cons_self _ _)]
      show getGo _ _ (eraseFirst (L :: m.keys) L) k = some v1
      rw [eraseFirst, if_pos rfl]
      refine (getGo_of_not_has _ _ _ _ fun j hj => ?_).trans (alGet_alSet_self _ _ _)
      have hjL : j ≠ L := fun hc => hLnotin (hc ▸ hj)
      rw [alGet_alDelete_ne _ _ _ hjL, alGet_alSet_ne _ _ _ _ hjL]
      exact hfree j hj
  | some ov =>
    have hLin : L ∈ m.keys := h4 (L, ov) (alGet_some_mem halg)
    have e2 : (m.set k (some v1) none).set k (some v2) (some L) =
        { optimistic := alSet m.optimistic L (alSet ov k (some v2)),
          base := alSet m.base k v1,
          keys := m.keys } := by
      rw [hm1]
      exact set_layer_eq_of_some _ _ _ _ _ hL halg
    constructor
    · rw [e2]
      show getGo _ _ m.keys k = some v2
      refine getGo_mem _ _ _ _ L (alSet ov k (some v2)) (some v2) hLin
        (alGet_alSet_self _ _ _) (alGet_alSet_self _ _ _) fun j hj hjL => ?_
      rw [alGet_alSet_ne _ _ _ _ hjL]
      exact hfree j hj
    · rw [e2]
      have hcl := clear_eq_of_mem
        ({ optimistic := alSet m.optimistic L (alSet ov k (some v2)),
           base := alSet m.base k v1,
           keys := m.keys } : KVMap T) L hLin
      rw [hcl]
      show getGo _ _ (eraseFirst m.keys L) k = some v1
      refine (getGo_of_not_has _ _ _ _ fun j hj => ?_).trans (alGet_alSet_self _ _ _)
      have hj' := (mem_eraseFirst_iff h1).1 hj
      rw [alGet_alDelete_ne _ _ _ hj'.2, alGet_alSet_ne _ _ _ _ hj'.2]
      exact hfree j hj'.1

/-- Witness for C4 (amended), starting from the empty container. -/
theorem optimistic_isolation_amended_witness :
    (((KVMap.make : KVMap Nat).set "k" (some 1) none).set "k" (some 2) (some 1)).get "k" =
        some 2 ∧
      ((((KVMap.make : KVMap Nat).set "k" (some 1) none).set "k" (some 2)
            (some 1)).clear 1).get "k" = some 1 :=
  optimistic_isolation_amended (KVMap.make : KVMap Nat) "k" 1 2 1 (by decide) (by decide)
    (by decide)

/-- Claim C5: in every container reachable through the `map.ts` API, the
layer order is duplicate-free (at most one overlay per id), and a `set`
targeting an already-open layer id merges the write into the existing
overlay — the layer order is unchanged, the overlay is updated in place,
base is untouched. -/
theorem set_merges_open_layer {T : Type} (m : KVMap T) (hm : Reachable m) (k : Nat)
    (key : String) (value : Option T) (hk : k ∈ m.keys) :
    m.keys.Nodup ∧
    (m.set key value (some k)).keys = m.keys ∧
    ∃ ov, alGet m.optimistic k = some ov ∧
      (m.set key value (some k)).optimistic = alSet m.optimistic k (alSet ov key value) ∧
      (m.set key value (some k)).base = m.base := by
  obtain ⟨h1, h2, h3, h4, h5⟩ := reachable_inv hm
  have hk0 : k ≠ 0 := fun hc => h2 (hc ▸ hk)
  have hs := h3 k hk
  cases halg : alGet m.optimistic k with
  | none => rw [halg] at hs; exact absurd hs (by simp)
  | some ov =>
    have he := set_layer_eq_of_some m key value k ov hk0 halg
    refine ⟨h1, ?_, ⟨ov, rfl, ?_, ?_⟩⟩ <;> rw [he]

/-- Witness for C5: writing again to the open layer `5` keeps the layer
order unchanged. -/
theorem set_merges_open_layer_witness :
    (((KVMap.make : KVMap Nat).set "a" (some 1) (some 5)).set "b" (some 2) (some 5)).keys =
      ((KVMap.make : KVMap Nat).set "a" (some 1) (some 5)).keys :=
  (set_merges_open_layer ((KVMap.make : KVMap Nat).set "a" (some 1) (some 5))
      (Reachable.step_set "a" (some 1) (some 5) Reachable.init) 5 "b" (some 2)
      (by decide)).2.1

/-- Claim C6: on well-formed containers, `clear(container, layerId)` removes
the overlay entirely when open (leaving every other overlay and base
untouched, and preserving the relative order of the remaining layers), is a
no-op when the layer is not open, and is idempotent. -/
theorem clear_removes_layer {T : Type} (m : KVMap T) (k : Nat) (h : Inv m) :
    (k ∉ m.keys → m.clear k = m) ∧
    (k ∈ m.keys →
      (m.clear k).keys = m.keys.filter (fun j => j ≠ k) ∧
      alGet (m.clear k).optimistic k = none ∧
      (∀ j, j ≠ k → alGet (m.clear k).optimistic j = alGet m.optimistic j) ∧
      (m.clear k).base = m.base) ∧
    (m.clear k).clear k = m.clear k := by
  obtain ⟨h1, h2, h3, h4, h5⟩ := h
  refine ⟨fun hk => clear_eq_of_not_mem m k hk, fun hk => ?_, ?_⟩
  · rw [clear_eq_of_mem m k hk]
    exact ⟨eraseFirst_eq_filter m.keys k h1, alGet_alDelete_self _ _ h5,
      fun j hj => alGet_alDelete_ne _ _ _ hj, rfl⟩
  · by_cases hk : k ∈ m.keys
    · rw [clear_eq_of_mem m k hk]
      apply clear_eq_of_not_mem
      intro hc
      exact ((mem_eraseFirst_iff h1).1 hc).2 rfl
    · rw [clear_eq_of_not_mem m k hk, clear_eq_of_not_mem m k hk]

/-- Witness for C6: clearing layer `3` twice equals clearing it once. -/
theorem clear_removes_layer_witness :
    (((KVMap.make : KVMap Nat).set "a" (some 1) (some 3)).clear 3).clear 3 =
      ((KVMap.make : KVMap Nat).set "a" (some 1) (some 3)).clear 3 :=
  (clear_removes_layer ((KVMap.make : KVMap Nat).set "a" (some 1) (some 3)) 3
      (by decide)).2.2

/-- Claim C10: in every container reachable through the `map.ts` API, the
`keys` array is duplicate-free and lists exactly the overlays present in
the optimistic dictionary (so `get`'s scan never dereferences a missing
overlay and `clear` finds an open id at exactly one position), and a `set`
that opens a new layer pushes its id to the front of the order (most
recently opened first). -/
theorem keys_invariant {T : Type} (m : KVMap T) (h : Reachable m) :
    m.keys.Nodup ∧
    (∀ k ∈ m.keys, (alGet m.optimistic k).isSome = true) ∧
    (∀ p ∈ m.optimistic, p.1 ∈ m.keys) ∧
    (∀ (k : Nat) (key : String) (value : Option T),
      k ≠ 0 → k ∉ m.keys → (m.set key value (some k)).keys = k :: m.keys) := by
  obtain ⟨h1, h2, h3, h4, h5⟩ := reachable_inv h
  refine ⟨h1, h3, h4, fun k key value hk0 hkn => ?_⟩
  cases halg : alGet m.optimistic k with
  | none => rw [set_layer_eq_of_none m key value k hk0 halg]
  | some ov => exact absurd (h4 (k, ov) (alGet_some_mem halg)) hkn

/-- Witness for C10 on a container with two open layers. -/
theorem keys_invariant_witness :
    (((KVMap.make : KVMap Nat).set "a" (some 1) (some 7)).set "b" (some 2) (some 9)).keys.Nodup ∧
      ((((KVMap.make : KVMap Nat).set "a" (some 1) (some 7)).set "b" (some 2)
              (some 9)).set "c" (some 3) (some 4)).keys =
        4 :: (((KVMap.make : KVMap Nat).set "a" (some 1) (some 7)).set "b" (some 2)
            (some 9)).keys :=
  ⟨(keys_invariant _ (Reachable.step_set "b" (some 2) (some 9)
      (Reachable.step_set "a" (some 1) (some 7) Reachable.init))).1,
    (keys_invariant _ (Reachable.step_set "b" (some 2) (some 9)
        (Reachable.step_set "a" (some 1) (some 7) Reachable.init))).2.2.2 4 "c" (some 3)
      (by decide) (by decide)⟩

/-! ## Data model of the store (`src/types.ts`)

Scalars are restricted to the primitive cases (`null | number | boolean |
string`); a stored field value is a scalar or an array of scalars. An
entity is a flat mapping from field key to `EntityField =
undefined | Scalar | Scalar[]`: a binding to `none` is the
"key present but value `undefined`" link sentinel, an absent binding means
"never cached". -/

inductive Scalar where
  | null
  | num (n : Int)
  | bool (b : Bool)
  | str (s : String)
deriving DecidableEq

inductive FieldVal where
  | scalar (s : Scalar)
  | arr (l : List Scalar)
deriving DecidableEq

abbrev Entity : Type := AList String (Option FieldVal)

/-- Field arguments, as a flat object of scalar values. -/
abbrev Args : Type := AList String Scalar

/-- `Link = null | Key | NullArray<Key>` from `src/types.ts`. -/
inductive Link where
  | null
  | one (key : String)
  | many (keys : List (Option String))
deriving DecidableEq

/-! ## Key derivation (`src/helpers`, not part of the given sources) -/

/-- Modelled from the spec: deterministic serialization of one scalar for
`keyOfField`'s canonical argument string (the source file defining it,
`src/helpers/keys.ts`, is not among the given sources). -/
def serializeScalar : Scalar → String
  | Scalar.null => "null"
  | Scalar.num n => toString n
  | Scalar.bool b => toString b
  | Scalar.str s => "\"" ++ s ++ "\""

/-- Modelled from the spec: insert an argument binding into a key-sorted
argument list, for the order-independent serialization of `keyOfField`. -/
def insertSorted (x : String × Scalar) : Args → Args
  | [] => [x]
  | y :: ys => if x.1 ≤ y.1 then x :: y :: ys else y :: insertSorted x ys

/-- Modelled from the spec: sort argument bindings by key so that argument
objects differing only in property insertion order serialize identically. -/
def sortArgs : Args → Args
  | [] => []
  | x :: xs => insertSorted x (sortArgs xs)

/-- Modelled from the spec: stable serialization of an argument object with
sorted keys. -/
def serializeArgs (a : Args) : String :=
  String.intercalate ","
    ((sortArgs a).map fun p => p.1 ++ ":" ++ serializeScalar p.2)

/-- Modelled from the spec: `keyOfField(name, args)` returns `name`
unchanged when `args` is null/empty, otherwise `name` plus a stable,
argument-order-independent serialization of `args` (`src/helpers/keys.ts`
is not among the given sources). -/
def keyOfField (name : String) (args : Option Args) : String :=
  match args with
  | none => name
  | some a => if a.isEmpty then name else name ++ "(" ++ serializeArgs a ++ ")"

/-- The identifying value of a system field: a string or number identifies
(numbers are stringified), `null`/`undefined`/absent or non-id-like values
do not. -/
def idValue : Option (Option FieldVal) → Option String
  | some (some (FieldVal.scalar (Scalar.str s))) => some s
  | some (some (FieldVal.scalar (Scalar.num n))) => some (toString n)
  | _ => none

/-- The `__typename` of an entity, when present and truthy (a non-empty
string). -/
def entityTypename (e : Entity) : Option String :=
  match alGet e "__typename" with
  | some (some (FieldVal.scalar (Scalar.str t))) => if t = "" then none else some t
  | _ => none

/-- Modelled from the spec: `keyOfEntity(obj)` returns `null` if
`obj.__typename` is absent or falsy, or if neither `id` nor `_id` is
present (non-null, non-undefined); otherwise
`"<typename>:<identifying value>"`, with `id` taking precedence over `_id`
(`src/helpers/keys.ts` is not among the given sources). -/
def keyOfEntity (e : Entity) : Option String :=
  match entityTypename e with
  | none => none
  | some t =>
    match idValue (alGet e "id") with
    | some i => some (t ++ ":" ++ i)
    | none =>
      match idValue (alGet e "_id") with
      | some i => some (t ++ ":" ++ i)
      | none => none

/-- Modelled from the spec: `joinKeys(a, b)` concatenates the two keys with
a separator (`src/helpers/keys.ts` is not among the given sources). -/
def joinKeys (a b : String) : String := a ++ "." ++ b

/-! ## Store (`src/store/store.ts`, third section of the given
`schemaPredicates.ts` source) -/

structure Store where
  records : AList String Entity
  links : AList String Link
deriving DecidableEq

def Store.empty : Store := { records := [], links := [] }

/-- `find(key)`: exact record lookup, `null` (here `none`) when absent. -/
def Store.find (s : Store) (key : String) : Option Entity :=
  alGet s.records key

/-- `readLink(key)`: link-map lookup, `undefined` (here `none`) when unset. -/
def Store.readLink (s : Store) (key : String) : Option Link :=
  alGet s.links key

/-- `remove(key)`: deletes the entity record, nothing else. -/
def Store.remove (s : Store) (key : String) : Store :=
  { s with records := alDelete s.records key }

/-- `setLink(key, link)`. -/
def Store.setLink (s : Store) (key : String) (link : Link) : Store :=
  { s with links := alSet s.links key link }

/-- The result of `resolveProperty`: the stored field value, `null`, a
single resolved entity, or an array of resolved entities with `null`
slots. -/
inductive RRes where
  | val (v : FieldVal)
  | null
  | ent (e : Entity)
  | list (l : List (Option Entity))
deriving DecidableEq

/-- `resolveProperty(parent, field, args)` from the `Store`: compute the
field key; a present, defined value is returned as-is; a present
`undefined` value marks a link, resolved through the parent's entity key —
an array link maps each non-`null` key through `find` preserving slots, and
a scalar link goes through `find` when *truthy* (the source tests
`link ? this.find(link) : null`, so the empty-string key and `null` and an
unset link all yield `null`); an absent field key yields `null`. -/
def Store.resolveProperty (s : Store) (parent : Entity) (field : String)
    (args : Option Args) : RRes :=
  let fieldKey := keyOfField field args
  match alGet parent fieldKey with
  | some (some v) => RRes.val v
  | some none =>
    match keyOfEntity parent with
    | none => RRes.null
    | some entityKey =>
      match s.readLink (joinKeys entityKey fieldKey) with
      | some (Link.many l) => RRes.list (l.map fun ok => ok.bind s.find)
      | some (Link.one linkKey) =>
        if linkKey = "" then RRes.null
        else
          match s.find linkKey with
          | some e => RRes.ent e
          | none => RRes.null
      | some Link.null => RRes.null
      | none => RRes.null
  | none => RRes.null

/-! ## Schema predicates (`src/ast/schemaPredicates.ts`, first section of
the given source) -/

/-- One field of an object type definition; `nonNull` records whether
`field.type.kind === NON_NULL_TYPE`. -/
structure FieldDef where
  name : String
  nonNull : Bool
deriving DecidableEq

/-- A definition of the parsed schema document: an object type definition
with its fields, or any other definition kind. -/
inductive Definition where
  | objectType (name : String) (fields : List FieldDef)
  | other
deriving DecidableEq

def defIsObjectNamed (t : String) : Definition → Bool
  | Definition.objectType n _ => n == t
  | Definition.other => false

def fieldsOfDef : Definition → List FieldDef
  | Definition.objectType _ fs => fs
  | Definition.other => []

/-- The introspected schema handed to the constructor: the three optional
root operation type names (`__schema.queryType && __schema.queryType.name`
etc.) and the type definitions of the parsed document. -/
structure IntroSchema where
  queryType : Option String
  mutationType : Option String
  subscriptionType : Option String
  definitions : List Definition
deriving DecidableEq

inductive RootField where
  | query
  | mutation
  | subscription
deriving DecidableEq

structure RootFields where
  query : Option String
  mutation : Option String
  subscription : Option String
deriving DecidableEq

structure SchemaPredicates where
  schema : Option (List Definition)
  rootFields : RootFields
deriving DecidableEq

/-- The constructor: with a schema, `rootFields` takes the declared root
type names (which are `null` when the schema declares no type for an
operation kind, because `x && x.name` evaluates to the falsy `x`); without
a schema, the conventional names. -/
def SchemaPredicates.make : Option IntroSchema → SchemaPredicates
  | some sc =>
    { schema := some sc.definitions,
      rootFields :=
        { query := sc.queryType,
          mutation := sc.mutationType,
          subscription := sc.subscriptionType } }
  | none =>
    { schema := none,
      rootFields :=
        { query := some "Query",
          mutation := some "Mutation",
          subscription := some "Subscription" } }

/-- `getRootKey(name)` returns `this.rootFields[name]`. -/
def SchemaPredicates.getRootKey (sp : SchemaPredicates) : RootField → Option String
  | RootField.query => sp.rootFields.query
  | RootField.mutation => sp.rootFields.mutation
  | RootField.subscription => sp.rootFields.subscription

/-- The conventional root type names used when no schema is provided. -/
def conventionalName : RootField → String
  | RootField.query => "Query"
  | RootField.mutation => "Mutation"
  | RootField.subscription => "Subscription"

/-- The root operation type name an introspected schema declares for an
operation kind, when it declares one. -/
def IntroSchema.declaredRoot (sc : IntroSchema) : RootField → Option String
  | RootField.query => sc.queryType
  | RootField.mutation => sc.mutationType
  | RootField.subscription => sc.subscriptionType

/-- `isFieldNullable(typename, fieldName)`: permissively `true` without a
schema; otherwise find the object type definition, then the field, and
answer `type.kind !== NON_NULL_TYPE`; `true` when either is not found. -/
def SchemaPredicates.isFieldNullable (sp : SchemaPredicates)
    (typename fieldName : String) : Bool :=
  match sp.schema with
  | none => true
  | some defs =>
    match defs.find? (defIsObjectNamed typename) with
    | none => true
    | some d =>
      match (fieldsOfDef d).find? (fun fd => fd.name == fieldName) with
      | none => true
      | some fd => !fd.nonNull

/-! ## Claims about the store and the schema predicates -/

def cexEntity : Entity := [("x", some (FieldVal.scalar (Scalar.num 1)))]

def cexParent : Entity :=
  [("__typename", some (FieldVal.scalar (Scalar.str "Q"))),
   ("id", some (FieldVal.scalar (Scalar.str "1"))),
   ("f", none)]

def cexStore : Store :=
  { records := [("", cexEntity)],
    links := [(joinKeys "Q:1" "f", Link.one "")] }

/-- Counterexample to claim C1 as stated: a stored scalar link with the
empty-string key is non-null, and `find("")` succeeds on this store, yet
`resolveProperty` returns `null` instead of the found entity — the source
resolves a scalar link with the truthiness test `link ? this.find(link) :
null`, not a null test. -/
theorem resolveProperty_scalar_link_claim_false :
    keyOfEntity cexParent = some "Q:1" ∧
    alGet cexParent (keyOfField "f" none) = some none ∧
    cexStore.readLink (joinKeys "Q:1" (keyOfField "f" none)) = some (Link.one "") ∧
    Link.one "" ≠ Link.null ∧
    cexStore.find "" = some cexEntity ∧
    cexStore.resolveProperty cexParent "f" none = RRes.null ∧
    RRes.null ≠ RRes.ent cexEntity := by
  decide

/-- Claim C1, amended: `resolveProperty(parent, f, a)` with
`fieldKey = keyOfField(f, a or null)` returns the stored value when the key
is present with a defined value; when the key is present with the
`undefined` sentinel it is a link — `null` if the parent has no entity key,
otherwise the link at `joinKeys(entityKey, fieldKey)` is read: an array
link maps each non-null element through `find` with null slots (and missing
entities) preserved in place, a scalar link goes through `find` when
non-null *and non-empty* (forced by the counterexample: the source's
truthiness test sends the empty-string key to `null`), and `null` results
when the link is null or unset; an absent field key yields `null`. -/
theorem resolveProperty_cases_amended (s : Store) (parent : Entity) (f : String)
    (a : Option Args) :
    (∀ v, alGet parent (keyOfField f a) = some (some v) →
      s.resolveProperty parent f a = RRes.val v) ∧
    (alGet parent (keyOfField f a) = some none → keyOfEntity parent = none →
      s.resolveProperty parent f a = RRes.null) ∧
    (∀ ek, alGet parent (keyOfField f a) = some none → keyOfEntity parent = some ek →
      ((∀ l, s.readLink (joinKeys ek (keyOfField f a)) = some (Link.many l) →
        s.resolveProperty parent f a = RRes.list (l.map fun ok => ok.bind s.find)) ∧
      (∀ lk, s.readLink (joinKeys ek (keyOfField f a)) = some (Link.one lk) → lk ≠ "" →
        s.resolveProperty parent f a =
          (match s.find lk with
           | some e => RRes.ent e
           | none => RRes.null)) ∧
      (s.readLink (joinKeys ek (keyOfField f a)) = some (Link.one "") →
        s.resolveProperty parent f a = RRes.null) ∧
      (s.readLink (joinKeys ek (keyOfField f a)) = some Link.null →
        s.resolveProperty parent f a = RRes.null) ∧
      (s.readLink (joinKeys ek (keyOfField f a)) = none →
        s.resolveProperty parent f a = RRes.null))) ∧
    (alGet parent (keyOfField f a) = none → s.resolveProperty parent f a = RRes.null) := by
  refine ⟨fun v h1 => ?_, fun h1 h2 => ?_,
    fun ek h1 h2 =>
      ⟨fun l h3 => ?_, fun lk h3 hne => ?_, fun h3 => ?_, fun h3 => ?_, fun h3 => ?_⟩,
    fun h1 => ?_⟩
  · simp only [Store.resolveProperty, h1]
  · simp only [Store.resolveProperty, h1, h2]
  · simp only [Store.resolveProperty, h1, h2, h3]
  · simp only [Store.resolveProperty, h1, h2, h3]
    rw [if_neg hne]
  · simp only [Store.resolveProperty, h1, h2, h3, if_pos]
  · simp only [Store.resolveProperty, h1, h2, h3]
  · simp only [Store.resolveProperty, h1, h2, h3]
  · simp only [Store.resolveProperty, h1]

def wEnt : Entity :=
  [("__typename", some (FieldVal.scalar (Scalar.str "T"))),
   ("id", some (FieldVal.scalar (Scalar.str "1")))]

def wParent : Entity :=
  [("__typename", some (FieldVal.scalar (Scalar.str "Q"))),
   ("id", some (FieldVal.scalar (Scalar.str "1"))),
   ("items", none),
   ("n", some (FieldVal.scalar (Scalar.num 5)))]

def wStore : Store :=
  { records := [("T:1", wEnt)],
    links := [(joinKeys "Q:1" "items", Link.many [some "T:1", none, some "T:9"])] }

/-- Witness for C1 (amended): an array link resolves with null slots and a
dangling key preserved in place, and a stored scalar value is returned
as-is. -/
theorem resolveProperty_cases_amended_witness :
    Store.resolveProperty wStore wParent "items" none =
        RRes.list [some wEnt, none, none] ∧
      Store.resolveProperty wStore wParent "n" none =
        RRes.val (FieldVal.scalar (Scalar.num 5)) :=
  ⟨(((resolveProperty_cases_amended wStore wParent "items" none).2.2.1 "Q:1" (by decide)
          (by decide)).1 [some "T:1", none, some "T:9"] (by decide)).trans (by decide),
    (resolveProperty_cases_amended wStore wParent "n" none).1
      (FieldVal.scalar (Scalar.num 5)) (by decide)⟩

/-- Counterexample to claim C7 as stated: with a schema that declares a
query root but no mutation root, `getRootKey('mutation')` returns the
absent value, not the conventional fallback "Mutation" — the constructor
stores `__schema.mutationType && __schema.mutationType.name`, which is the
falsy `mutationType` itself when unset, and `getRootKey` returns it
unchanged. -/
theorem getRootKey_fallback_claim_false :
    (SchemaPredicates.make (some
          { queryType := some "Query", mutationType := none,
            subscriptionType := none, definitions := [] })).getRootKey
        RootField.mutation = none ∧
      (none : Option String) ≠ some "Mutation" := by
  decide

/-- Claim C7, amended: `getRootKey` falls back to the conventional names
`Query`/`Mutation`/`Subscription` only when *no schema at all* was
provided; with a schema it returns exactly the declared root operation
type name for the kind — which is absent (null) when the schema declares
no type for that operation kind (forced by the counterexample). -/
theorem getRootKey_amended (s : Option IntroSchema) (k : RootField) :
    (s = none → (SchemaPredicates.make s).getRootKey k = some (conventionalName k)) ∧
    (∀ sc, s = some sc →
      (SchemaPredicates.make s).getRootKey k = sc.declaredRoot k) := by
  constructor
  · intro h
    subst h
    cases k <;> rfl
  · intro sc h
    subst h
    cases k <;> rfl

/-- Witness for C7 (amended): the conventional fallback without a schema,
and the declared name with one. -/
theorem getRootKey_amended_witness :
    (SchemaPredicates.make none).getRootKey RootField.mutation = some "Mutation" ∧
      (SchemaPredicates.make (some
            { queryType := some "QueryRoot", mutationType := none,
              subscriptionType := none, definitions := [] })).getRootKey
          RootField.query = some "QueryRoot" :=
  ⟨(getRootKey_amended none RootField.mutation).1 rfl,
    (getRootKey_amended _ RootField.query).2 _ rfl⟩

/-- Claim C8: `isFieldNullable(typename, fieldName)` is `true` when no
schema was provided; with a schema it is `false` exactly when the schema's
object type definition found for `typename` has `fieldName` with a
non-null type, and it is permissively `true` whenever the type or the
field is not found. -/
theorem isFieldNullable_spec (sp : SchemaPredicates) (t f : String) :
    (sp.schema = none → sp.isFieldNullable t f = true) ∧
    (∀ defs, sp.schema = some defs →
      ((defs.find? (defIsObjectNamed t) = none → sp.isFieldNullable t f = true) ∧
      (∀ d, defs.find? (defIsObjectNamed t) = some d →
        (fieldsOfDef d).find? (fun fd => fd.name == f) = none →
        sp.isFieldNullable t f = true) ∧
      (sp.isFieldNullable t f = false ↔
        ∃ d fd, defs.find? (defIsObjectNamed t) = some d ∧
          (fieldsOfDef d).find? (fun fd => fd.name == f) = some fd ∧
          fd.nonNull = true))) := by
  refine ⟨fun h => ?_, fun defs h => ⟨fun h2 => ?_, fun d h2 h3 => ?_, ?_⟩⟩
  · simp only [SchemaPredicates.isFieldNullable, h]
  · simp only [SchemaPredicates.isFieldNullable, h, h2]
  · simp only [SchemaPredicates.isFieldNullable, h, h2, h3]
  · cases h2 : defs.find? (defIsObjectNamed t) with
    | none =>
      simp only [SchemaPredicates.isFieldNullable, h, h2]
      constructor
      · intro hc
        exact absurd hc (by simp)
      · rintro ⟨d, fd, hd, -⟩
        exact absurd hd (by simp)
    | some d =>
      cases h3 : (fieldsOfDef d).find? (fun fd => fd.name == f) with
      | none =>
        simp only [SchemaPredicates.isFieldNullable, h, h2, h3]
        constructor
        · intro hc
          exact absurd hc (by simp)
        · rintro ⟨d', fd, hd, hfd, -⟩
          injection hd with hd
          subst hd
          rw [h3] at hfd
          exact absurd hfd (by simp)
      | some fd =>
        simp only [SchemaPredicates.isFieldNullable, h, h2, h3]
        constructor
        · intro hc
          refine ⟨d, fd, rfl, h3, ?_⟩
          cases hn : fd.nonNull with
          | false =>
            rw [hn] at hc
            exact absurd hc (by simp)
          | true => rfl
        · rintro ⟨d', fd', hd, hfd, hnn⟩
          injection hd with hd
          subst hd
          rw [h3] at hfd
          injection hfd with hfd
          subst hfd
          rw [hnn]
          rfl

/-- Witness for C8: a schema in which `T.f` is non-null gives `false`, and
the empty schema document gives `true` for any lookup. -/
theorem isFieldNullable_spec_witness :
    (SchemaPredicates.make (some
          { queryType := none, mutationType := none, subscriptionType := none,
            definitions := [Definition.objectType "T"
              [{ name := "f", nonNull := true }]] })).isFieldNullable "T" "f" = false ∧
      (SchemaPredicates.make none).isFieldNullable "T" "f" = true :=
  ⟨((isFieldNullable_spec (SchemaPredicates.make (some
        { queryType := none, mutationType := none, subscriptionType := none,
          definitions := [Definition.objectType "T"
            [{ name := "f", nonNull := true }]] })) "T" "f").2
      [Definition.objectType "T" [{ name := "f", nonNull := true }]] rfl).2.2.mpr
      ⟨Definition.objectType "T" [{ name := "f", nonNull := true }],
        { name := "f", nonNull := true }, by decide, by decide, rfl⟩,
    (isFieldNullable_spec (SchemaPredicates.make none) "T" "f").1 rfl⟩

/-- Claim C9: `remove(k)` deletes only the record stored under `k` — the
links map and every other record are unchanged, `find(k)` becomes `null` —
and a later `resolveProperty` through an array link still targeting `k`
resolves, mapping the dangling slot to `null` in place rather than
failing. Stated for stores whose record map has duplicate-free keys, which
holds for every store built through the `Store` API (a JS `Map` cannot
hold a key twice). -/
theorem remove_no_cascade (s : Store) (k : String)
    (hnd : (s.records.map Prod.fst).Nodup) :
    (s.remove k).links = s.links ∧
    (∀ j, j ≠ k → (s.remove k).find j = s.find j) ∧
    (s.remove k).find k = none ∧
    (∀ (parent : Entity) (f : String) (a : Option Args) (ek : String)
        (l : List (Option String)),
      keyOfEntity parent = some ek →
      alGet parent (keyOfField f a) = some none →
      (s.remove k).readLink (joinKeys ek (keyOfField f a)) = some (Link.many l) →
      (s.remove k).resolveProperty parent f a =
        RRes.list (l.map fun ok => ok.bind (s.remove k).find) ∧
      ∀ i : Nat, l[i]? = some (some k) →
        (l.map fun ok => ok.bind (s.remove k).find)[i]? = some none) := by
  refine ⟨rfl, fun j hj => ?_, ?_, fun parent f a ek l h1 h2 h3 => ⟨?_, fun i hi => ?_⟩⟩
  · exact alGet_alDelete_ne _ _ _ hj
  · exact alGet_alDelete_self _ _ hnd
  · simp only [Store.resolveProperty, h2, h1, h3]
  · rw [List.getElem?_map, hi]
    have hfk : (s.remove k).find k = none := alGet_alDelete_self _ _ hnd
    simp [hfk]

def w9Ent1 : Entity :=
  [("__typename", some (FieldVal.scalar (Scalar.str "Todo"))),
   ("id", some (FieldVal.scalar (Scalar.str "1")))]

def w9Ent2 : Entity :=
  [("__typename", some (FieldVal.scalar (Scalar.str "Todo"))),
   ("id", some (FieldVal.scalar (Scalar.str "2")))]

def w9Parent : Entity :=
  [("__typename", some (FieldVal.scalar (Scalar.str "Query"))),
   ("id", some (FieldVal.scalar (Scalar.str "0"))),
   ("todos", none)]

def w9Store : Store :=
  { records := [("Todo:1", w9Ent1), ("Todo:2", w9Ent2)],
    links := [(joinKeys "Query:0" "todos", Link.many [some "Todo:1", none, some "Todo:2"])] }

/-- Witness for C9: removing `Todo:2` leaves links intact and a later read
through the list link yields `null` in its slot. -/
theorem remove_no_cascade_witness :
    (w9Store.remove "Todo:2").links = w9Store.links ∧
      (w9Store.remove "Todo:2").find "Todo:2" = none ∧
      (w9Store.remove "Todo:2").resolveProperty w9Parent "todos" none =
        RRes.list [some w9Ent1, none, none] :=
  ⟨(remove_no_cascade w9Store "Todo:2" (by decide)).1,
    (remove_no_cascade w9Store "Todo:2" (by decide)).2.2.1,
    (((remove_no_cascade w9Store "Todo:2" (by decide)).2.2.2 w9Parent "todos" none
          "Query:0" [some "Todo:1", none, some "Todo:2"] (by decide) (by decide)
          (by decide)).1).trans (by decide)⟩

end Graphcache
